import Mathlib

/-!
# Verification of the SecureCRT session extractor

A shallow embedding of src/remote_access/extract_scrt_sessions.py.
XML elements become the inductive `Elem` (tag, attributes, text, children);
`find_sessions_root` and `iter_sessions` are translated from the source,
with the Python generator rendered as an eager list in yield order.
-/

/-- A flat session record, as built by iter_sessions (a dict with the four
fixed keys name, address, port, protocol). -/
structure SessionRecord where
  name : String
  address : String
  port : String
  protocol : String
deriving DecidableEq, Repr

/-- An XML element: tag, ordered attributes, optional text, ordered children.
Mirrors xml.etree.ElementTree.Element as the script uses it. -/
inductive Elem where
  | mk (tag : String) (attrib : List (String × String)) (text : Option String)
      (children : List Elem)

def Elem.tag : Elem → String
  | .mk t _ _ _ => t

def Elem.attrib : Elem → List (String × String)
  | .mk _ a _ _ => a

def Elem.text : Elem → Option String
  | .mk _ _ x _ => x

def Elem.children : Elem → List Elem
  | .mk _ _ _ cs => cs

/-- `e.attrib.get(k)` in Python: first binding of the attribute key
(attribute keys are unique in a parsed element, so first = only). -/
def getAttr (e : Elem) (k : String) : Option String :=
  (e.attrib.find? (fun p => p.1 == k)).map (fun p => p.2)

mutual
/-- All proper descendants of an element in document (pre-order) order:
what `root.findall(".//tag")` scans before filtering on the tag. -/
def descendants : Elem → List Elem
  | .mk _ _ _ cs => descendantsList cs
def descendantsList : List Elem → List Elem
  | [] => []
  | c :: rest => c :: (descendants c ++ descendantsList rest)
end

/-- `find_sessions_root`: scan `root.findall(".//key")` (all descendant
elements tagged "key", in document order) and return the first whose
name attribute is "Sessions", else None. -/
def find_sessions_root (root : Elem) : Option Elem :=
  ((descendants root).filter (fun e => e.tag == "key")).find?
    (fun key => getAttr key "name" == some "Sessions")

/-- State of the three loop variables hostname/port/protocol in the leaf
field scan of iter_sessions. -/
structure FieldScan where
  hostname : Option String
  port : Option String
  protocol : Option String
deriving DecidableEq, Repr

def isHostnameField (c : Elem) : Bool :=
  c.tag == "string" && getAttr c "name" == some "Hostname"

def isPortField (c : Elem) : Bool :=
  c.tag == "dword" && getAttr c "name" == some "[SSH2] Port"

def isProtocolField (c : Elem) : Bool :=
  c.tag == "string" && getAttr c "name" == some "Protocol Name"

/-- `child.text or ""`. -/
def textOrEmpty (c : Elem) : String := c.text.getD ""

/-- One iteration of the `for child in node:` field-scan loop. -/
def scanStep (s : FieldScan) (c : Elem) : FieldScan :=
  if isHostnameField c then { s with hostname := some (textOrEmpty c) }
  else if isPortField c then { s with port := some (textOrEmpty c) }
  else if isProtocolField c then { s with protocol := some (textOrEmpty c) }
  else s

/-- The whole field-scan loop over a node's immediate children. -/
def scanFields (node : Elem) : FieldScan :=
  node.children.foldl scanStep ⟨none, none, none⟩

/-- `v or d` for an optional string v: Python falsiness of None and "". -/
def orDefault : Option String → String → String
  | none, d => d
  | some s, d => if s == "" then d else s

/-- The record a leaf-candidate node yields, if any: `if hostname:` guards
the single yield. -/
def leafRecord (node : Elem) (path : List String) : Option SessionRecord :=
  let s := scanFields node
  match s.hostname with
  | none => none
  | some h =>
    if h == "" then none
    else some ⟨String.intercalate "/" path, h,
               orDefault s.port "22", orDefault s.protocol "SSH2"⟩

/-- `child.attrib.get("name", "")`: the path segment a key child adds. -/
def childName (c : Elem) : String := (getAttr c "name").getD ""

/-- `node.findall("key")`: immediate children tagged "key", in order. -/
def keyChildren (node : Elem) : List Elem :=
  node.children.filter (fun c => c.tag == "key")

mutual
/-- `iter_sessions(node, path)`: the generator's output as a list, in yield
order.  If the node has key children, recurse into each in document order
with the child's name appended to the path; otherwise scan the fields and
yield at most one record. -/
def iter_sessions : Elem → List String → List SessionRecord
  | node@(.mk _ _ _ cs), path =>
    if (keyChildren node).isEmpty then (leafRecord node path).toList
    else iterKeys cs path
/-- The `for child in keys:` loop, fused with the construction of `keys`:
walk the children in document order and recurse into those tagged "key". -/
def iterKeys : List Elem → List String → List SessionRecord
  | [], _ => []
  | c :: rest, path =>
    (if c.tag == "key" then iter_sessions c (path ++ [childName c]) else [])
      ++ iterKeys rest path
end

mutual
/-- The depth-first pre-order sequence of leaf-candidate nodes the recursion
inspects, each with the path it is inspected under: the reference traversal
for the order-preservation claim. -/
def sessionLeaves : Elem → List String → List (Elem × List String)
  | node@(.mk _ _ _ cs), path =>
    if (keyChildren node).isEmpty then [(node, path)]
    else leavesKeys cs path
/-- Companion of `sessionLeaves` walking a child list in document order. -/
def leavesKeys : List Elem → List String → List (Elem × List String)
  | [], _ => []
  | c :: rest, path =>
    (if c.tag == "key" then sessionLeaves c (path ++ [childName c]) else [])
      ++ leavesKeys rest path
end

mutual
/-- Number of elements in a tree, counting the node itself. -/
def elemSize : Elem → Nat
  | .mk _ _ _ cs => 1 + elemListSize cs
/-- Number of elements in a forest. -/
def elemListSize : List Elem → Nat
  | [] => 0
  | c :: rest => elemSize c + elemListSize rest
end

/-- A chain of singly-nested key containers with the given names wrapped
around an innermost element. -/
def chainTo (ns : List String) (inner : Elem) : Elem :=
  ns.foldr (fun nm acc => Elem.mk "key" [("name", nm)] none [acc]) inner

/-- Convenience constructor for a container node as in the input format. -/
def mkKey (n : String) (cs : List Elem) : Elem := .mk "key" [("name", n)] none cs

/-- Convenience constructor for a string leaf field. -/
def mkString (n v : String) : Elem := .mk "string" [("name", n)] (some v) []

/-- Convenience constructor for a dword leaf field. -/
def mkDword (n v : String) : Elem := .mk "dword" [("name", n)] (some v) []

/-- The leaf node of the spec's first concrete scenario. -/
def c4leaf : Elem := mkKey "srv1" [mkString "Hostname" "10.0.0.5"]

/-- The Sessions tree of the spec's first concrete scenario. -/
def c4tree : Elem := mkKey "Sessions" [mkKey "Work" [c4leaf]]

/-- A leaf session whose port field carries the text "22" explicitly. -/
def c2leaf : Elem :=
  .mk "key" [("name", "s")] none
    [mkString "Hostname" "h", mkDword "[SSH2] Port" "22"]

/-- A leaf session with explicit non-default port and protocol. -/
def c2full : Elem :=
  .mk "key" [("name", "s2")] none
    [mkString "Hostname" "host2", mkDword "[SSH2] Port" "2222",
     mkString "Protocol Name" "SSH1"]

/-- The record extracted from c2full. -/
def c2rec : SessionRecord := ⟨"", "host2", "2222", "SSH1"⟩

/-- A key container with no name attribute, wrapping a session leaf. -/
def c9noname : Elem := .mk "key" [] none [mkKey "B" [mkString "Hostname" "h"]]

/-- A Sessions tree with a nameless key container on the path. -/
def c9tree : Elem := mkKey "Sessions" [mkKey "A" [c9noname]]

/-- A Sessions node that is itself a leaf candidate with a Hostname. -/
def c10node : Elem := .mk "key" [("name", "Sessions")] none [mkString "Hostname" "h"]

example : iter_sessions c4tree [] = [⟨"Work/srv1", "10.0.0.5", "22", "SSH2"⟩] := by
  decide

example : find_sessions_root (.mk "root" [] none [c4tree]) = some c4tree := rfl

/-! ## Unfolding lemmas for the traversal -/

theorem iter_sessions_def (node : Elem) (path : List String) :
    iter_sessions node path =
      if (keyChildren node).isEmpty then (leafRecord node path).toList
      else iterKeys node.children path := by
  cases node
  rfl

theorem iterKeys_eq_flatMap (l : List Elem) (path : List String) :
    iterKeys l path =
      (l.filter (fun c => c.tag == "key")).flatMap
        (fun c => iter_sessions c (path ++ [childName c])) := by
  induction l with
  | nil => rfl
  | cons c rest ih =>
    by_cases h : c.tag == "key" <;>
      simp [iterKeys, List.filter_cons, h, ih]

theorem iter_sessions_internal (node : Elem) (path : List String)
    (h : keyChildren node ≠ []) :
    iter_sessions node path =
      (keyChildren node).flatMap (fun c => iter_sessions c (path ++ [childName c])) := by
  rw [iter_sessions_def, if_neg, iterKeys_eq_flatMap]
  · rfl
  · simp [List.isEmpty_iff, h]

theorem iter_sessions_leaf (node : Elem) (path : List String)
    (h : keyChildren node = []) :
    iter_sessions node path = (leafRecord node path).toList := by
  rw [iter_sessions_def, if_pos]
  simp [List.isEmpty_iff, h]

/-! ## Field-scan lemmas -/

theorem isHostnameField_not_port (c : Elem) (h : isHostnameField c = true) :
    isPortField c = false := by
  simp only [isHostnameField, Bool.and_eq_true, beq_iff_eq] at h
  simp [isPortField, h.1]

theorem isProtocolField_not_hostname (c : Elem) (h : isProtocolField c = true) :
    isHostnameField c = false := by
  simp only [isProtocolField, Bool.and_eq_true, beq_iff_eq] at h
  simp [isHostnameField, h.2]

theorem isProtocolField_not_port (c : Elem) (h : isProtocolField c = true) :
    isPortField c = false := by
  simp only [isProtocolField, Bool.and_eq_true, beq_iff_eq] at h
  simp [isPortField, h.1]

theorem scanStep_hostname (s : FieldScan) (c : Elem) :
    (scanStep s c).hostname =
      if isHostnameField c then some (textOrEmpty c) else s.hostname := by
  by_cases h1 : isHostnameField c
  · simp [scanStep, h1]
  · by_cases h2 : isPortField c <;> by_cases h3 : isProtocolField c <;>
      simp [scanStep, h1, h2, h3]

theorem scanStep_port (s : FieldScan) (c : Elem) :
    (scanStep s c).port =
      if isPortField c then some (textOrEmpty c) else s.port := by
  by_cases h1 : isHostnameField c
  · rw [if_neg]
    · simp [scanStep, h1]
    · simp [isHostnameField_not_port c h1]
  · by_cases h2 : isPortField c <;> by_cases h3 : isProtocolField c <;>
      simp [scanStep, h1, h2, h3]

theorem scanStep_protocol (s : FieldScan) (c : Elem) :
    (scanStep s c).protocol =
      if isProtocolField c then some (textOrEmpty c) else s.protocol := by
  by_cases h3 : isProtocolField c
  · rw [if_pos h3]
    simp [scanStep, isProtocolField_not_hostname c h3, isProtocolField_not_port c h3, h3]
  · by_cases h1 : isHostnameField c <;> by_cases h2 : isPortField c <;>
      simp [scanStep, h1, h2, h3]

theorem scanFoldl_hostname (l : List Elem) (s : FieldScan) :
    (l.foldl scanStep s).hostname =
      match l.reverse.find? isHostnameField with
      | some c => some (textOrEmpty c)
      | none => s.hostname := by
  induction l generalizing s with
  | nil => rfl
  | cons c rest ih =>
    rw [List.foldl_cons, ih, List.reverse_cons, List.find?_append]
    cases rest.reverse.find? isHostnameField with
    | some d => rfl
    | none =>
      simp only [Option.or]
      rw [scanStep_hostname]
      cases h : isHostnameField c <;> simp [List.find?_cons, h]

theorem scanFoldl_port (l : List Elem) (s : FieldScan) :
    (l.foldl scanStep s).port =
      match l.reverse.find? isPortField with
      | some c => some (textOrEmpty c)
      | none => s.port := by
  induction l generalizing s with
  | nil => rfl
  | cons c rest ih =>
    rw [List.foldl_cons, ih, List.reverse_cons, List.find?_append]
    cases rest.reverse.find? isPortField with
    | some d => rfl
    | none =>
      simp only [Option.or]
      rw [scanStep_port]
      cases h : isPortField c <;> simp [List.find?_cons, h]

theorem scanFoldl_protocol (l : List Elem) (s : FieldScan) :
    (l.foldl scanStep s).protocol =
      match l.reverse.find? isProtocolField with
      | some c => some (textOrEmpty c)
      | none => s.protocol := by
  induction l generalizing s with
  | nil => rfl
  | cons c rest ih =>
    rw [List.foldl_cons, ih, List.reverse_cons, List.find?_append]
    cases rest.reverse.find? isProtocolField with
    | some d => rfl
    | none =>
      simp only [Option.or]
      rw [scanStep_protocol]
      cases h : isProtocolField c <;> simp [List.find?_cons, h]

theorem head?_filter {α : Type} (p : α → Bool) (l : List α) :
    (l.filter p).head? = l.find? p := by
  induction l with
  | nil => rfl
  | cons c rest ih =>
    rw [List.filter_cons, List.find?_cons]
    cases h : p c <;> simp [h, ih]

theorem getLast?_filter {α : Type} (p : α → Bool) (l : List α) :
    (l.filter p).getLast? = l.reverse.find? p := by
  rw [List.getLast?_eq_head?_reverse, ← List.filter_reverse, head?_filter]

/-! ## Traversal-shape lemmas -/

mutual
theorem iter_eq_filterMap_leaves : (node : Elem) → (path : List String) →
    iter_sessions node path
      = (sessionLeaves node path).filterMap (fun lp => leafRecord lp.1 lp.2)
  | .mk t a x cs, path => by
    rw [iter_sessions_def, sessionLeaves]
    by_cases h : (keyChildren (.mk t a x cs)).isEmpty
    · rw [if_pos h, if_pos h]
      cases h2 : leafRecord (.mk t a x cs) path <;> simp [h2]
    · rw [if_neg h, if_neg h]
      exact iterKeys_eq_filterMap_leaves cs path
theorem iterKeys_eq_filterMap_leaves : (l : List Elem) → (path : List String) →
    iterKeys l path
      = (leavesKeys l path).filterMap (fun lp => leafRecord lp.1 lp.2)
  | [], _ => by simp [iterKeys, leavesKeys]
  | c :: rest, path => by
    rw [iterKeys, leavesKeys, List.filterMap_append,
      iterKeys_eq_filterMap_leaves rest path]
    by_cases h : c.tag == "key"
    · rw [if_pos h, if_pos h, iter_eq_filterMap_leaves c (path ++ [childName c])]
    · rw [if_neg h, if_neg h]
      rfl
end

mutual
theorem iter_length_le_size : (node : Elem) → (path : List String) →
    (iter_sessions node path).length ≤ elemSize node
  | .mk t a x cs, path => by
    rw [iter_sessions_def, elemSize]
    simp only [Elem.children]
    by_cases h : (keyChildren (.mk t a x cs)).isEmpty
    · rw [if_pos h]
      cases h2 : leafRecord (.mk t a x cs) path <;> simp [h2]
    · rw [if_neg h]
      have := iterKeys_length_le_size cs path
      omega
theorem iterKeys_length_le_size : (l : List Elem) → (path : List String) →
    (iterKeys l path).length ≤ elemListSize l
  | [], _ => by simp [iterKeys, elemListSize]
  | c :: rest, path => by
    rw [iterKeys, elemListSize, List.length_append]
    have h2 := iterKeys_length_le_size rest path
    by_cases h : c.tag == "key"
    · rw [if_pos h]
      have h1 := iter_length_le_size c (path ++ [childName c])
      omega
    · rw [if_neg h]
      simp only [List.length_nil]
      omega
end

/-! ## Lemmas about find? for the locator claim -/

theorem find?_filter {α : Type} (p q : α → Bool) (l : List α) :
    (l.filter p).find? q = l.find? (fun x => p x && q x) := by
  induction l with
  | nil => rfl
  | cons c rest ih =>
    rw [List.filter_cons]
    by_cases hp : p c
    · rw [if_pos hp, List.find?_cons, List.find?_cons]
      cases hq : q c <;> simp [hp, hq, ih]
    · rw [if_neg hp, List.find?_cons, ih]
      simp only [hp]
      rfl

theorem find?_eq_some_split {α : Type} (p : α → Bool) (l : List α) (a : α)
    (h : l.find? p = some a) :
    ∃ l1 l2, l = l1 ++ a :: l2 ∧ p a = true ∧ ∀ x ∈ l1, p x = false := by
  induction l with
  | nil => simp at h
  | cons c rest ih =>
    rw [List.find?_cons] at h
    cases hp : p c
    · rw [hp] at h
      obtain ⟨l1, l2, heq, hpa, hprev⟩ := ih h
      refine ⟨c :: l1, l2, by rw [heq]; rfl, hpa, ?_⟩
      intro x hx
      rcases List.mem_cons.mp hx with hx | hx
      · rw [hx]; exact hp
      · exact hprev x hx
    · rw [hp] at h
      obtain rfl : c = a := by injection h
      exact ⟨[], rest, rfl, hp, by intro x hx; simp at hx⟩

/-! ## Chain-of-containers lemmas for the path claim -/

theorem keyChildren_mkKey_single (n : String) (c : Elem) (h : c.tag = "key") :
    keyChildren (mkKey n [c]) = [c] := by
  simp [keyChildren, mkKey, Elem.children, List.filter_cons, h]

theorem childName_mkKey (n : String) (cs : List Elem) : childName (mkKey n cs) = n := rfl

theorem chainTo_tag (ns : List String) (inner : Elem) (h : inner.tag = "key") :
    (chainTo ns inner).tag = "key" := by
  cases ns with
  | nil => exact h
  | cons m ms => rfl

theorem iter_mkKey_chain (ns : List String) (n : String) (inner : Elem)
    (path : List String) (htag : inner.tag = "key") :
    iter_sessions (mkKey n [chainTo ns inner]) path
      = iter_sessions inner (path ++ ns ++ [childName inner]) := by
  induction ns generalizing n path with
  | nil =>
    rw [show chainTo [] inner = inner from rfl]
    rw [iter_sessions_internal _ path
      (by rw [keyChildren_mkKey_single n inner htag]; exact List.cons_ne_nil _ _)]
    rw [keyChildren_mkKey_single n inner htag]
    simp
  | cons m ms ih =>
    rw [show chainTo (m :: ms) inner = mkKey m [chainTo ms inner] from rfl]
    rw [iter_sessions_internal _ path
      (by rw [keyChildren_mkKey_single n (mkKey m [chainTo ms inner]) rfl]
          exact List.cons_ne_nil _ _)]
    rw [keyChildren_mkKey_single n (mkKey m [chainTo ms inner]) rfl]
    simp only [List.flatMap_cons, List.flatMap_nil, List.append_nil, childName_mkKey]
    rw [ih m (path ++ [m])]
    simp

/-! ## The claims -/

/-- C1: a node with at least one immediate key child yields only what the
recursion into those children yields; a node with no key children yields
exactly one record when the extracted Hostname candidate is non-empty, and
no record when the Hostname candidate is absent or empty (and no error can
occur: the traversal is a total function). -/
theorem claim_c1 (node : Elem) (path : List String) :
    (keyChildren node ≠ [] →
      iter_sessions node path
        = (keyChildren node).flatMap (fun c => iter_sessions c (path ++ [childName c]))) ∧
    (keyChildren node = [] →
      ((∃ h, (scanFields node).hostname = some h ∧ h ≠ "") →
        ∃ r, iter_sessions node path = [r]) ∧
      ((scanFields node).hostname = none ∨ (scanFields node).hostname = some "" →
        iter_sessions node path = [])) := by
  refine ⟨iter_sessions_internal node path, fun hk => ⟨?_, ?_⟩⟩
  · rintro ⟨h, hh, hne⟩
    rw [iter_sessions_leaf node path hk]
    refine ⟨⟨String.intercalate "/" path, h, orDefault (scanFields node).port "22",
      orDefault (scanFields node).protocol "SSH2"⟩, ?_⟩
    simp [leafRecord, hh, hne]
  · rintro (hh | hh) <;>
      rw [iter_sessions_leaf node path hk] <;> simp [leafRecord, hh]

/-- Witness for C1 at the concrete scenario tree (internal-node case). -/
theorem claim_c1_witness :
    keyChildren c4tree ≠ [] ∧
    iter_sessions c4tree []
      = (keyChildren c4tree).flatMap (fun c => iter_sessions c ([] ++ [childName c])) := by
  have hne : keyChildren c4tree ≠ [] := by
    have e : keyChildren c4tree = [mkKey "Work" [c4leaf]] := rfl
    rw [e]
    exact List.cons_ne_nil _ _
  exact ⟨hne, (claim_c1 c4tree []).1 hne⟩

/-- C4: on the tree Sessions > Work > srv1 with Hostname 10.0.0.5 and no
port or protocol fields, extraction from the Sessions node with an empty
path yields exactly one record: name Work/srv1, address 10.0.0.5, port 22,
protocol SSH2. -/
theorem claim_c4 :
    iter_sessions c4tree [] = [⟨"Work/srv1", "10.0.0.5", "22", "SSH2"⟩] := by
  decide

/-- C5: the locator returns the first pre-order descendant tagged key whose
name attribute is "Sessions" (everything before it in the descendant list
fails the test), and returns none exactly when no such descendant exists. -/
theorem claim_c5 (root : Elem) :
    (∀ e, find_sessions_root root = some e →
      e.tag = "key" ∧ getAttr e "name" = some "Sessions" ∧
      ∃ l1 l2, descendants root = l1 ++ e :: l2 ∧
        ∀ d ∈ l1, ¬(d.tag = "key" ∧ getAttr d "name" = some "Sessions")) ∧
    (find_sessions_root root = none ↔
      ∀ e ∈ descendants root, ¬(e.tag = "key" ∧ getAttr e "name" = some "Sessions")) := by
  constructor
  · intro e he
    rw [find_sessions_root, find?_filter] at he
    obtain ⟨l1, l2, heq, hpa, hprev⟩ := find?_eq_some_split _ _ _ he
    simp only [Bool.and_eq_true, beq_iff_eq] at hpa
    refine ⟨hpa.1, hpa.2, l1, l2, heq, ?_⟩
    intro d hd hcon
    have := hprev d hd
    simp [hcon.1, hcon.2] at this
  · rw [find_sessions_root, find?_filter, List.find?_eq_none]
    constructor
    · intro h e he hcon
      have := h e he
      simp only [Bool.and_eq_true, beq_iff_eq] at this
      exact this ⟨hcon.1, hcon.2⟩
    · intro h e he
      simp only [Bool.and_eq_true, beq_iff_eq]
      intro hcon
      exact h e he hcon

/-- Witness for C5: on a document whose only Sessions key is the scenario
tree, the locator returns it and it satisfies the first-match property. -/
theorem claim_c5_witness :
    c4tree.tag = "key" ∧ getAttr c4tree "name" = some "Sessions" ∧
    ∃ l1 l2, descendants (.mk "root" [] none [c4tree]) = l1 ++ c4tree :: l2 ∧
      ∀ d ∈ l1, ¬(d.tag = "key" ∧ getAttr d "name" = some "Sessions") :=
  (claim_c5 (.mk "root" [] none [c4tree])).1 c4tree rfl

/-- C2 as stated is false: on a leaf whose dword "[SSH2] Port" field carries
the text "22", the emitted port equals "22" although the source field is
present and non-empty, refuting the stated "exactly when". -/
theorem claim_c2_counterexample :
    ¬ (∀ (node : Elem) (path : List String) (r : SessionRecord),
        keyChildren node = [] → iter_sessions node path = [r] →
        ((r.port = "22" ↔
            (scanFields node).port = none ∨ (scanFields node).port = some "") ∧
         (r.protocol = "SSH2" ↔
            (scanFields node).protocol = none ∨ (scanFields node).protocol = some ""))) := by
  intro hclaim
  have h := (hclaim c2leaf [] ⟨"", "h", "22", "SSH2"⟩ rfl rfl).1.mp rfl
  exact absurd h (by decide)

/-- C2 (amended): for a record emitted by a leaf, the port is "22" if the
port candidate is absent or empty and equals the candidate's text verbatim
otherwise; likewise the protocol with default "SSH2" (the defaulted value
may also coincide with a verbatim field value, so no "only if" holds). -/
theorem claim_c2_amended (node : Elem) (path : List String) (r : SessionRecord)
    (hk : keyChildren node = []) (hr : iter_sessions node path = [r]) :
    ((scanFields node).port = none ∨ (scanFields node).port = some "" →
      r.port = "22") ∧
    (∀ s, (scanFields node).port = some s → s ≠ "" → r.port = s) ∧
    ((scanFields node).protocol = none ∨ (scanFields node).protocol = some "" →
      r.protocol = "SSH2") ∧
    (∀ s, (scanFields node).protocol = some s → s ≠ "" → r.protocol = s) := by
  rw [iter_sessions_leaf node path hk] at hr
  have hlr : leafRecord node path = some r := by
    cases h : leafRecord node path with
    | none => rw [h] at hr; simp at hr
    | some v =>
      rw [h] at hr
      have hvr : v = r := by simpa using hr
      rw [hvr]
  simp only [leafRecord] at hlr
  cases hh : (scanFields node).hostname with
  | none => rw [hh] at hlr; simp at hlr
  | some hv =>
    rw [hh] at hlr
    by_cases hve : hv = ""
    · rw [hve] at hlr; simp at hlr
    · simp [hve] at hlr
      subst hlr
      refine ⟨?_, ?_, ?_, ?_⟩
      · rintro (hp | hp) <;> simp [orDefault, hp]
      · intro s hs hse
        simp [orDefault, hs, hse]
      · rintro (hp | hp) <;> simp [orDefault, hp]
      · intro s hs hse
        simp [orDefault, hs, hse]

/-- Witness for the amended C2 at a leaf with explicit port and protocol. -/
theorem claim_c2_amended_witness :
    keyChildren c2full = [] ∧ iter_sessions c2full [] = [c2rec] ∧
    (((scanFields c2full).port = none ∨ (scanFields c2full).port = some "" →
        c2rec.port = "22") ∧
     (∀ s, (scanFields c2full).port = some s → s ≠ "" → c2rec.port = s) ∧
     ((scanFields c2full).protocol = none ∨ (scanFields c2full).protocol = some "" →
        c2rec.protocol = "SSH2") ∧
     (∀ s, (scanFields c2full).protocol = some s → s ≠ "" → c2rec.protocol = s)) :=
  ⟨rfl, rfl, claim_c2_amended c2full [] c2rec rfl rfl⟩

/-- C3 as stated is false: in the concrete scenario tree the emitted name
is "Work/srv1", whose last segment is exactly the leaf node's own name
attribute "srv1", and it differs from the name "Work" that joining only the
proper ancestors would give. -/
theorem claim_c3_counterexample :
    (iter_sessions c4tree []).map SessionRecord.name = ["Work/srv1"] ∧
    getAttr c4leaf "name" = some "srv1" ∧
    "Work/srv1" = String.intercalate "/" ["Work", "srv1"] ∧
    (iter_sessions c4tree []).map SessionRecord.name
      ≠ [String.intercalate "/" ["Work"]] := by
  refine ⟨rfl, rfl, by decide, by decide⟩

/-- C3 (amended): the record's name is the "/"-join of the container names
below the Sessions root down to and including the leaf session node: for a
chain of containers named ns around a leaf container named leafName, the
emitted name is the join of ns ++ [leafName]; the Sessions root itself
contributes no segment. -/
theorem claim_c3_amended (ns : List String) (leafName hostVal : String)
    (fields : List Elem)
    (hk : fields.filter (fun c => c.tag == "key") = [])
    (hh : (scanFields (mkKey leafName fields)).hostname = some hostVal)
    (hne : hostVal ≠ "") :
    iter_sessions (mkKey "Sessions" [chainTo ns (mkKey leafName fields)]) []
      = [⟨String.intercalate "/" (ns ++ [leafName]), hostVal,
          orDefault (scanFields (mkKey leafName fields)).port "22",
          orDefault (scanFields (mkKey leafName fields)).protocol "SSH2"⟩] := by
  have hkc : keyChildren (mkKey leafName fields) = [] := by
    simpa [keyChildren, mkKey, Elem.children] using hk
  rw [iter_mkKey_chain ns "Sessions" (mkKey leafName fields) [] rfl,
    childName_mkKey, iter_sessions_leaf _ _ hkc]
  simp [leafRecord, hh, hne]

/-- Witness for the amended C3 at the concrete scenario chain. -/
theorem claim_c3_amended_witness :
    [mkString "Hostname" "10.0.0.5"].filter (fun c => c.tag == "key") = [] ∧
    (scanFields (mkKey "srv1" [mkString "Hostname" "10.0.0.5"])).hostname
      = some "10.0.0.5" ∧
    iter_sessions
        (mkKey "Sessions" [chainTo ["Work"] (mkKey "srv1" [mkString "Hostname" "10.0.0.5"])]) []
      = [⟨String.intercalate "/" (["Work"] ++ ["srv1"]), "10.0.0.5",
          orDefault (scanFields (mkKey "srv1" [mkString "Hostname" "10.0.0.5"])).port "22",
          orDefault (scanFields (mkKey "srv1" [mkString "Hostname" "10.0.0.5"])).protocol "SSH2"⟩] :=
  ⟨rfl, rfl,
    claim_c3_amended ["Work"] "srv1" "10.0.0.5" [mkString "Hostname" "10.0.0.5"]
      rfl rfl (by decide)⟩

/-- C6: in the leaf field scan, each of the three candidates is the text of
the last matching immediate child in document order (later matches
overwrite earlier ones), independently for hostname, port and protocol. -/
theorem claim_c6 (node : Elem) :
    (scanFields node).hostname
        = ((node.children.filter isHostnameField).getLast?).map textOrEmpty ∧
    (scanFields node).port
        = ((node.children.filter isPortField).getLast?).map textOrEmpty ∧
    (scanFields node).protocol
        = ((node.children.filter isProtocolField).getLast?).map textOrEmpty := by
  refine ⟨?_, ?_, ?_⟩
  · rw [getLast?_filter]
    simp only [scanFields, scanFoldl_hostname]
    cases node.children.reverse.find? isHostnameField <;> rfl
  · rw [getLast?_filter]
    simp only [scanFields, scanFoldl_port]
    cases node.children.reverse.find? isPortField <;> rfl
  · rw [getLast?_filter]
    simp only [scanFields, scanFoldl_protocol]
    cases node.children.reverse.find? isProtocolField <;> rfl

/-- C7: the output sequence is exactly the depth-first pre-order sequence
of leaf candidates, filtered to those that yield a record: the n-th record
comes from the n-th qualifying leaf, with no reordering. -/
theorem claim_c7 (node : Elem) (path : List String) :
    iter_sessions node path
      = (sessionLeaves node path).filterMap (fun lp => leafRecord lp.1 lp.2) :=
  iter_eq_filterMap_leaves node path

/-- C8: extraction is a total function (hence terminates on every finite
tree) and its output length is bounded by the number of tree nodes. -/
theorem claim_c8 (node : Elem) (path : List String) :
    (iter_sessions node path).length ≤ elemSize node :=
  iter_length_le_size node path

/-- C9: a key child with no name attribute contributes the empty string as
its path segment (the node is neither skipped nor an error); concretely a
nameless container between "A" and "B" yields the name "A//B". -/
theorem claim_c9 :
    (∀ (node c : Elem) (p : List String), keyChildren node = [c] →
      getAttr c "name" = none →
      iter_sessions node p = iter_sessions c (p ++ [""])) ∧
    iter_sessions c9tree [] = [⟨"A//B", "h", "22", "SSH2"⟩] := by
  constructor
  · intro node c p hk hn
    rw [iter_sessions_internal node p (by rw [hk]; exact List.cons_ne_nil _ _), hk]
    simp [childName, hn]
  · decide

/-- Witness for C9 at the concrete nameless container. -/
theorem claim_c9_witness :
    keyChildren (mkKey "A" [c9noname]) = [c9noname] ∧
    getAttr c9noname "name" = none ∧
    iter_sessions (mkKey "A" [c9noname]) [] = iter_sessions c9noname ([] ++ [""]) :=
  ⟨rfl, rfl, claim_c9.1 (mkKey "A" [c9noname]) c9noname [] rfl rfl⟩

/-- C10: a Sessions root with no key children but a non-empty Hostname,
extracted with the empty initial path, emits one record whose name is the
empty string. -/
theorem claim_c10 (node : Elem) (h : String)
    (hk : keyChildren node = []) (hh : (scanFields node).hostname = some h)
    (hne : h ≠ "") :
    iter_sessions node []
      = [⟨"", h, orDefault (scanFields node).port "22",
          orDefault (scanFields node).protocol "SSH2"⟩] := by
  rw [iter_sessions_leaf node [] hk]
  simp [leafRecord, hh, hne]
  rfl

/-- Witness for C10 at a concrete Sessions leaf node. -/
theorem claim_c10_witness :
    keyChildren c10node = [] ∧ (scanFields c10node).hostname = some "h" ∧
    iter_sessions c10node []
      = [⟨"", "h", orDefault (scanFields c10node).port "22",
          orDefault (scanFields c10node).protocol "SSH2"⟩] :=
  ⟨rfl, rfl, claim_c10 c10node "h" rfl rfl (by decide)⟩
